import Mathlib

/-!
Verification development for `poker_probability.py`, a Texas Hold'em win
probability calculator.  The Python source is shallowly embedded below:
cards are pairs of a rank value (0–12 as an integer, as computed by
`RANKS.index`) and a suit; `itertools.combinations` is embedded as `combos`;
the counting loops become folds; the two `raise ValueError` guards become
`Except.error`.  Real-number results are modelled with `ℚ` (the source's
arithmetic on the counters is exact; only the final division and power are
floating point there).
-/

/-- The four suits `"H", "D", "C", "S"`. -/
inductive Suit : Type
  | H | D | C | S
  deriving DecidableEq, Repr

/-- A playing card.  The Python `Card` stores the rank symbol and the suit and
derives `rank_value = RANKS.index(rank)`; since rank symbol and rank value
determine each other, the embedding keeps only `rank_value` (an integer,
0 for "2" up to 12 for "A") together with the suit.  Python `__eq__` compares
rank and suit, i.e. structural equality. -/
structure Card where
  rank_value : ℤ
  suit : Suit
  deriving DecidableEq, Repr

/-- The list `SUITS = ["H", "D", "C", "S"]`. -/
def SUITS : List Suit := [Suit.H, Suit.D, Suit.C, Suit.S]

/-- `create_deck()`: all 52 cards, rank-major (`for rank in RANKS for suit in SUITS`). -/
def create_deck : List Card :=
  (List.range 13).flatMap (fun r => SUITS.map (fun s => { rank_value := (r : ℤ), suit := s }))

/-- Insertion step of a stable descending sort on integers (embedding of
Python `sorted(..., reverse=True)`; stability is irrelevant for equal integers). -/
def insertDescZ (x : ℤ) : List ℤ → List ℤ
  | [] => [x]
  | y :: ys => if y ≤ x then x :: y :: ys else y :: insertDescZ x ys

/-- Descending sort on integers. -/
def sortDescZ (l : List ℤ) : List ℤ := l.foldr insertDescZ []

/-- Insertion step of a descending sort of cards by `rank_value`
(embedding of `sorted(cards, key=lambda card: card.rank_value, reverse=True)`). -/
def insertCardDesc (c : Card) : List Card → List Card
  | [] => [c]
  | d :: ds => if d.rank_value ≤ c.rank_value then c :: d :: ds else d :: insertCardDesc c ds

/-- Descending sort of cards by rank value. -/
def sortCardsDesc (l : List Card) : List Card := l.foldr insertCardDesc []

/-- Python `max` over a list of integers (only ever applied to nonempty lists
in the source; the value on `[]` is junk, where Python would raise). -/
def listMax : List ℤ → ℤ
  | [] => 0
  | [x] => x
  | x :: y :: ys => max x (listMax (y :: ys))

/-- Python `min` over a list of integers (only ever applied to nonempty lists). -/
def listMin : List ℤ → ℤ
  | [] => 0
  | [x] => x
  | x :: y :: ys => min x (listMin (y :: ys))

/-- Embedding of `itertools.combinations(l, k)`: all length-`k` sublists of `l`
in the same (lexicographic-by-position) order that `itertools` produces. -/
def combos {α : Type} : ℕ → List α → List (List α)
  | 0, _ => [[]]
  | _ + 1, [] => []
  | k + 1, x :: xs => (combos k xs).map (fun t => x :: t) ++ combos (k + 1) xs

/-- The local `ranks` of `hand_evaluator`: rank values of the cards sorted descending. -/
def ranksOf (cards : List Card) : List ℤ := (sortCardsDesc cards).map Card.rank_value

/-- The local `suits` of `hand_evaluator`: suits in the same sorted-card order. -/
def suitsOf (cards : List Card) : List Suit := (sortCardsDesc cards).map Card.suit

/-- The local `flush` of `hand_evaluator`: `len(set(suits)) == 1`. -/
def flushB (cards : List Card) : Bool := decide ((suitsOf cards).toFinset.card = 1)

/-- First straight test of `hand_evaluator`:
`len(set(ranks)) == 5 and max(ranks) - min(ranks) == 4`. -/
def isRunB (cards : List Card) : Bool :=
  decide ((ranksOf cards).toFinset.card = 5 ∧
    listMax (ranksOf cards) - listMin (ranksOf cards) = 4)

/-- The rank-value set `{0, 1, 2, 3, 12}` of the wheel A-2-3-4-5. -/
def wheelFinset : Finset ℤ := {0, 1, 2, 3, 12}

/-- Second (elif) straight test of `hand_evaluator`: `set(ranks) == {0,1,2,3,12}`. -/
def isWheelB (cards : List Card) : Bool := decide ((ranksOf cards).toFinset = wheelFinset)

/-- The local `straight` of `hand_evaluator` (either straight test fires). -/
def straightB (cards : List Card) : Bool := isRunB cards || isWheelB cards

/-- The local `straight_high` of `hand_evaluator`: `max(ranks)` for an ordinary
run, `3` for the wheel, and the dummy `-1` otherwise (mirroring the
`if`/`elif` assignment order of the source). -/
def straightHigh (cards : List Card) : ℤ :=
  if isRunB cards then listMax (ranksOf cards)
  else if isWheelB cards then 3
  else -1

/-- A hand score: `(category, tie_breakers)` exactly as returned by
`hand_evaluator` (the dummy initial score `(-1, [])` of `find_best_five`
also inhabits this type). -/
abbrev HandScore := ℤ × List ℤ

/-- The local `pairs` of the two-pair branch: the distinct rank values whose
count is exactly 2, in `Counter`-key order. -/
def pairsOf (cards : List Card) : List ℤ :=
  ((ranksOf cards).dedup).filter (fun r => (ranksOf cards).count r == 2)

/-- The body of `hand_evaluator` after its length guard: the priority chain of
classifications.  `Counter` iteration (`rank_counts.items()`) visits distinct
ranks in first-occurrence order of the descending `ranks` list, so a search
for "the rank with count n" is embedded as `find?` on the ranks list (first
occurrence); at most one rank can match each queried count in every reachable
branch, so the iteration order of `Counter` is immaterial.  Python's `[..][0]`
kicker selections become `headD 0`; the selected lists are nonempty whenever
the enclosing branch is reached on a 5-card input. -/
def handEval (cards : List Card) : HandScore :=
  if straightB cards && flushB cards && (ranksOf cards).contains 12
      && decide (straightHigh cards = 12) then
    (9, [])
  else if straightB cards && flushB cards then
    (8, [straightHigh cards])
  else match (ranksOf cards).find? (fun r => (ranksOf cards).count r == 4) with
  | some r => (7, [r, ((ranksOf cards).filter (fun v => v != r)).headD 0])
  | none =>
    match (ranksOf cards).find? (fun r => (ranksOf cards).count r == 3),
          (ranksOf cards).find? (fun r => (ranksOf cards).count r == 2) with
    | some three_val, some pair_val => (6, [three_val, pair_val])
    | _, _ =>
      if flushB cards then (5, ranksOf cards)
      else if straightB cards then (4, [straightHigh cards])
      else match (ranksOf cards).find? (fun r => (ranksOf cards).count r == 3) with
      | some r => (3, r :: sortDescZ ((ranksOf cards).filter (fun v => v != r)))
      | none =>
        if (pairsOf cards).length = 2 then
          (2, sortDescZ (pairsOf cards)
            ++ [((ranksOf cards).filter (fun v => !(pairsOf cards).contains v)).headD 0])
        else match (ranksOf cards).find? (fun r => (ranksOf cards).count r == 2) with
        | some r => (1, r :: sortDescZ ((ranksOf cards).filter (fun v => v != r)))
        | none => (0, sortDescZ (ranksOf cards))

/-- `hand_evaluator(cards)`: five-card guard plus the classification body. -/
def hand_evaluator (cards : List Card) : Except String HandScore :=
  if cards.length ≠ 5 then .error "We can only have a five card hand to evaluate."
  else .ok (handEval cards)

/-- The tie-breaker comparison loop of `compare_scores`
(`for val1, val2 in zip(score1[1], score2[1])`, truncating zip, final `return 0`). -/
def zipCmp : List ℤ → List ℤ → ℤ
  | v1 :: t1, v2 :: t2 =>
    if v1 < v2 then -1 else if v2 < v1 then 1 else zipCmp t1 t2
  | _, _ => 0

/-- `compare_scores(score1, score2)`: category first, then tie-breakers. -/
def compare_scores (score1 score2 : HandScore) : ℤ :=
  if score1.1 > score2.1 then 1
  else if score1.1 < score2.1 then -1
  else zipCmp score1.2 score2.2

/-- The loop of `find_best_five` over the enumerated 5-card hands, carrying
`(best_hand, best_score)`; the incumbent is replaced only when
`compare_scores(score, best_score) > 0`. -/
def bestLoop : List (List Card) → Option (List Card) × HandScore → Option (List Card) × HandScore
  | [], acc => acc
  | hand :: rest, acc =>
    let score := handEval hand
    match acc.1 with
    | none => bestLoop rest (some hand, score)
    | some _ =>
      if compare_scores score acc.2 > 0 then bestLoop rest (some hand, score)
      else bestLoop rest acc

/-- The unguarded search of `find_best_five`: run the loop from
`best_hand = None`, `best_score = (-1, [])` and return the final `best_hand`. -/
def bestFive (cards : List Card) : Option (List Card) :=
  (bestLoop (combos 5 cards) (none, (-1, []))).1

/-- `find_best_five(cards)`: at-least-five guard plus the search. -/
def find_best_five (cards : List Card) : Except String (Option (List Card)) :=
  if cards.length < 5 then .error "Need at least 5 cards to make hand"
  else .ok (bestFive cards)

/-- The win/tie counting loop of `probability_calculator` over the enumerated
opponent 2-card holdings (`wins` and `ties` accumulators): each opponent whose
best hand `find_best_five` + `hand_evaluator` scores below `my_score` adds a
win, an exact score tie adds a tie. -/
def countWT (community_cards : List Card) (my_score : HandScore) :
    List (List Card) → ℕ × ℕ
  | [] => (0, 0)
  | opp_cards :: rest =>
    let opp_score := handEval ((bestFive (opp_cards ++ community_cards)).getD [])
    let comparator := compare_scores my_score opp_score
    let wt := countWT community_cards my_score rest
    if comparator > 0 then (wt.1 + 1, wt.2)
    else if comparator = 0 then (wt.1, wt.2 + 1)
    else wt

/-- The local `remaining_deck` of `probability_calculator`: the deck
comprehension filtering out every card equal (rank and suit) to a known card. -/
def remaining_deck_of (known_cards : List Card) : List Card :=
  create_deck.filter (fun card => !(known_cards.any
    (fun known => card.rank_value == known.rank_value && decide (card.suit = known.suit))))

/-- `probability_calculator(my_hand, community_cards, player_count)`.  The two
length guards are the only error exits; the body computes the player's best
score, filters the known cards out of the deck (field-by-field equality, as in
the source's list comprehension), counts wins and ties over all 2-card
opponent holdings, and returns `((wins + ties/2) / comb(len(remaining), 2)) **
(player_count - 1)`.  `find_best_five` cannot fail and returns a hand here
(7 ≥ 5 cards), so its result is unwrapped with `getD []` at a point where the
default is unreachable. -/
def probability_calculator (my_hand community_cards : List Card)
    (player_count : ℤ) : Except String ℚ :=
  if my_hand.length ≠ 2 then .error "You need exactly two cards in your hand"
  else if community_cards.length ≠ 5 then
    .error "All 5 community cards must be known in current functionality"
  else
    .ok (((((countWT community_cards
            (handEval ((bestFive (my_hand ++ community_cards)).getD []))
            (combos 2 (remaining_deck_of (my_hand ++ community_cards)))).1 : ℚ)
          + ((countWT community_cards
            (handEval ((bestFive (my_hand ++ community_cards)).getD []))
            (combos 2 (remaining_deck_of (my_hand ++ community_cards)))).2 : ℚ) / 2)
        / (Nat.choose (remaining_deck_of (my_hand ++ community_cards)).length 2 : ℚ))
      ^ (player_count - 1))

/-- The fixed tie-break arity of each hand category (spec §3 / §8): royal
flush 0; straight flush and straight 1; four of a kind and full house 2;
flush and high card 5; three of a kind and two pair 3; one pair 4. -/
def arity : ℤ → ℕ
  | 9 => 0
  | 8 => 1
  | 7 => 2
  | 6 => 2
  | 5 => 5
  | 4 => 1
  | 3 => 3
  | 2 => 3
  | 1 => 4
  | 0 => 5
  | _ => 0

/-- A well-formed `HandScore` per the spec's data model: a category in `[0, 9]`
whose tie-break sequence has that category's fixed arity. -/
def WFScore (s : HandScore) : Prop :=
  0 ≤ s.1 ∧ s.1 ≤ 9 ∧ s.2.length = arity s.1

/-- The cards unseen by the player: the deck minus the known cards
(spec §4.5 step 2: `remaining = Deck − (hole ∪ community)`). -/
def unseenCards (known : List Card) : List Card :=
  create_deck.filter (fun c => decide (c ∉ known))

/-- The best five-of-seven score of a 5-to-7 card set: evaluate the hand that
the best-five search selects. -/
def bestOfSeven (seven : List Card) : HandScore := handEval ((bestFive seven).getD [])

/-- Spec-worded win count (§4.5 steps 3–5): the number of unordered 2-card
subsets of the unseen cards whose best five-of-seven score is strictly beaten
by the player's best five-of-seven score. -/
def spec_wins (hole community : List Card) : ℕ :=
  (combos 2 (unseenCards (hole ++ community))).countP
    (fun opp => decide (compare_scores (bestOfSeven (hole ++ community))
      (bestOfSeven (opp ++ community)) > 0))

/-- Spec-worded tie count: the number of those subsets scoring exactly equal. -/
def spec_ties (hole community : List Card) : ℕ :=
  (combos 2 (unseenCards (hole ++ community))).countP
    (fun opp => decide (compare_scores (bestOfSeven (hole ++ community))
      (bestOfSeven (opp ++ community)) = 0))

/-- Spec-worded probability (§4.5 steps 5–6):
`((wins + ties/2) / C(45,2)) ^ (player_count − 1)`. -/
def spec_win_probability (hole community : List Card) (player_count : ℤ) : ℚ :=
  (((spec_wins hole community : ℚ) + (spec_ties hole community : ℚ) / 2)
      / (Nat.choose 45 2 : ℚ)) ^ (player_count - 1)

/-- The five cards of the royal flush in suit `s`: ranks 10, J, Q, K, A
(rank values 8–12). -/
def royalCards (s : Suit) : List Card :=
  [⟨8, s⟩, ⟨9, s⟩, ⟨10, s⟩, ⟨11, s⟩, ⟨12, s⟩]

example : handEval [⟨8, .S⟩, ⟨9, .S⟩, ⟨10, .S⟩, ⟨11, .S⟩, ⟨12, .S⟩] = (9, []) := by decide
example : handEval [⟨7, .S⟩, ⟨6, .S⟩, ⟨5, .S⟩, ⟨4, .S⟩, ⟨3, .S⟩] = (8, [7]) := by decide
example : handEval [⟨0, .S⟩, ⟨1, .S⟩, ⟨2, .S⟩, ⟨3, .H⟩, ⟨12, .S⟩] = (4, [3]) := by decide
example : handEval [⟨0, .S⟩, ⟨1, .S⟩, ⟨2, .S⟩, ⟨3, .S⟩, ⟨12, .S⟩] = (8, [3]) := by decide
example : handEval [⟨0, .S⟩, ⟨0, .H⟩, ⟨0, .D⟩, ⟨0, .C⟩, ⟨12, .S⟩] = (7, [0, 12]) := by decide
example : handEval [⟨0, .S⟩, ⟨0, .H⟩, ⟨5, .D⟩, ⟨5, .C⟩, ⟨12, .S⟩] = (2, [5, 0, 12]) := by decide
example : handEval [⟨0, .S⟩, ⟨0, .H⟩, ⟨5, .D⟩, ⟨4, .C⟩, ⟨12, .S⟩] = (1, [0, 12, 5, 4]) := by decide
example : handEval [⟨0, .S⟩, ⟨0, .H⟩, ⟨5, .D⟩, ⟨0, .C⟩, ⟨12, .S⟩] = (3, [0, 12, 5]) := by decide
example : handEval [⟨0, .S⟩, ⟨0, .H⟩, ⟨5, .D⟩, ⟨0, .C⟩, ⟨5, .S⟩] = (6, [0, 5]) := by decide
example : handEval [⟨0, .S⟩, ⟨2, .S⟩, ⟨5, .S⟩, ⟨7, .S⟩, ⟨12, .S⟩] = (5, [12, 7, 5, 2, 0]) := by decide
example : handEval [⟨0, .S⟩, ⟨2, .H⟩, ⟨5, .S⟩, ⟨7, .S⟩, ⟨12, .S⟩] = (0, [12, 7, 5, 2, 0]) := by decide
example : create_deck.length = 52 := by decide
example : (combos 2 [1, 2, 3, 4]).length = 6 := by decide
example : combos 2 [1, 2, 3] = [[1, 2], [1, 3], [2, 3]] := by decide

/-! ### Basic lemmas: the sorts are permutations, lengths are preserved -/

theorem insertDescZ_perm (x : ℤ) (l : List ℤ) : (insertDescZ x l).Perm (x :: l) := by
  induction l with
  | nil => simp [insertDescZ]
  | cons y ys ih =>
    by_cases h : y ≤ x
    · simp [insertDescZ, h]
    · simp only [insertDescZ, if_neg h]
      exact (ih.cons y).trans (List.Perm.swap x y ys)

theorem sortDescZ_perm (l : List ℤ) : (sortDescZ l).Perm l := by
  induction l with
  | nil => simp [sortDescZ]
  | cons x xs ih =>
    have : sortDescZ (x :: xs) = insertDescZ x (sortDescZ xs) := rfl
    rw [this]
    exact (insertDescZ_perm x (sortDescZ xs)).trans (ih.cons x)

theorem insertCardDesc_perm (c : Card) (l : List Card) :
    (insertCardDesc c l).Perm (c :: l) := by
  induction l with
  | nil => simp [insertCardDesc]
  | cons d ds ih =>
    by_cases h : d.rank_value ≤ c.rank_value
    · simp [insertCardDesc, h]
    · simp only [insertCardDesc, if_neg h]
      exact (ih.cons d).trans (List.Perm.swap c d ds)

theorem sortCardsDesc_perm (l : List Card) : (sortCardsDesc l).Perm l := by
  induction l with
  | nil => simp [sortCardsDesc]
  | cons c cs ih =>
    have : sortCardsDesc (c :: cs) = insertCardDesc c (sortCardsDesc cs) := rfl
    rw [this]
    exact (insertCardDesc_perm c (sortCardsDesc cs)).trans (ih.cons c)

theorem ranksOf_perm (cards : List Card) :
    (ranksOf cards).Perm (cards.map Card.rank_value) :=
  (sortCardsDesc_perm cards).map Card.rank_value

theorem length_ranksOf (cards : List Card) : (ranksOf cards).length = cards.length := by
  simpa using (ranksOf_perm cards).length_eq

theorem length_sortDescZ (l : List ℤ) : (sortDescZ l).length = l.length :=
  (sortDescZ_perm l).length_eq

theorem suitsOf_perm (cards : List Card) :
    (suitsOf cards).Perm (cards.map Card.suit) :=
  (sortCardsDesc_perm cards).map Card.suit

/-! ### Combinations: membership and cardinality -/

theorem mem_combos {α : Type} : ∀ (k : ℕ) (l l' : List α),
    l' ∈ combos k l ↔ l'.Sublist l ∧ l'.length = k := by
  intro k l
  induction l generalizing k with
  | nil =>
    intro l'
    cases k with
    | zero => simp [combos, List.length_eq_zero]
    | succ k =>
      simp only [combos, List.not_mem_nil, false_iff, not_and]
      intro hs hl
      rw [List.sublist_nil] at hs
      subst hs
      simp at hl
  | cons x xs ih =>
    intro l'
    cases k with
    | zero =>
      constructor
      · intro h
        simp only [combos, List.mem_singleton] at h
        subst h
        exact ⟨List.nil_sublist _, rfl⟩
      · rintro ⟨_, hl⟩
        rw [List.length_eq_zero] at hl
        subst hl
        simp [combos]
    | succ k =>
      simp only [combos, List.mem_append, List.mem_map]
      constructor
      · rintro (⟨t, ht, rfl⟩ | h)
        · obtain ⟨hs, hl⟩ := (ih k t).1 ht
          exact ⟨hs.cons₂ x, by simp [hl]⟩
        · obtain ⟨hs, hl⟩ := (ih (k + 1) l').1 h
          exact ⟨hs.cons x, hl⟩
      · rintro ⟨hs, hl⟩
        cases hs with
        | cons _ h => exact .inr ((ih (k + 1) l').2 ⟨h, hl⟩)
        | cons₂ _ h =>
          exact .inl ⟨_, (ih k _).2 ⟨h, by simpa using hl⟩, rfl⟩

theorem length_combos {α : Type} : ∀ (k : ℕ) (l : List α),
    (combos k l).length = Nat.choose l.length k := by
  intro k l
  induction l generalizing k with
  | nil => cases k <;> simp [combos]
  | cons x xs ih =>
    cases k with
    | zero => simp [combos]
    | succ k =>
      simp only [combos, List.length_append, List.length_map, ih,
        List.length_cons, Nat.choose_succ_succ]

theorem combos_ne_nil {α : Type} (k : ℕ) (l : List α) (h : k ≤ l.length) :
    combos k l ≠ [] := by
  intro hnil
  have := length_combos k l
  rw [hnil] at this
  simp only [List.length_nil] at this
  exact absurd (Nat.choose_pos h) (by omega)

/-! ### Counting ranks: removing the occurrences of one value -/

theorem length_filter_ne (l : List ℤ) (r : ℤ) :
    l.length = l.count r + (l.filter (fun v => v != r)).length := by
  induction l with
  | nil => simp
  | cons x xs ih =>
    by_cases h : x = r
    · subst h
      simp only [List.length_cons, List.count_cons, List.filter_cons, bne_self_eq_false,
        beq_self_eq_true, if_pos, Bool.false_eq_true, if_false]
      omega
    · have hb : (x != r) = true := by simp [bne, h]
      have hc : (x == r) = false := by simp [h]
      simp only [List.length_cons, List.count_cons, List.filter_cons, hb, if_true, hc,
        Bool.false_eq_true, if_false, List.length_cons]
      omega

/-! ### The tie-breaker comparison: reflexivity, antisymmetry, transitivity -/

theorem zipCmp_self (l : List ℤ) : zipCmp l l = 0 := by
  induction l with
  | nil => rfl
  | cons x t ih => simp [zipCmp, lt_irrefl, ih]

theorem zipCmp_neg (a : List ℤ) : ∀ b, zipCmp a b = -zipCmp b a := by
  induction a with
  | nil => intro b; cases b <;> rfl
  | cons x t ih =>
    intro b
    cases b with
    | nil => rfl
    | cons y u =>
      simp only [zipCmp]
      by_cases h1 : x < y
      · have h2 : ¬ y < x := lt_asymm h1
        simp [h1, h2]
      · by_cases h2 : y < x
        · simp [h1, h2]
        · simp [h1, h2, ih u]

theorem zipCmp_trans_nonneg (a : List ℤ) : ∀ b c, a.length = b.length →
    b.length = c.length → 0 ≤ zipCmp a b → 0 ≤ zipCmp b c → 0 ≤ zipCmp a c := by
  induction a with
  | nil => intro b c _ _ _ _; cases c <;> simp [zipCmp]
  | cons x t ih =>
    intro b c hab hbc h1 h2
    cases b with
    | nil => simp at hab
    | cons y u =>
      cases c with
      | nil => simp at hbc
      | cons z v =>
        simp only [zipCmp] at h1 h2 ⊢
        by_cases hxy : x < y
        · rw [if_pos hxy] at h1; omega
        · by_cases hyz : y < z
          · rw [if_pos hyz] at h2; omega
          · have hy1 : y ≤ x := not_lt.1 hxy
            have hy2 : z ≤ y := not_lt.1 hyz
            by_cases hxz : x < z
            · omega
            · by_cases hzx : z < x
              · rw [if_neg hxz, if_pos hzx]; omega
              · rw [if_neg hxz, if_neg hzx]
                rw [if_neg hxy, if_neg (by omega : ¬ y < x)] at h1
                rw [if_neg hyz, if_neg (by omega : ¬ z < y)] at h2
                exact ih u v (by simpa using hab) (by simpa using hbc) h1 h2

theorem zipCmp_trans_zero (a : List ℤ) : ∀ b c, a.length = b.length →
    b.length = c.length → zipCmp a b = 0 → zipCmp b c = 0 → zipCmp a c = 0 := by
  induction a with
  | nil => intro b c _ _ _ _; cases c <;> simp [zipCmp]
  | cons x t ih =>
    intro b c hab hbc h1 h2
    cases b with
    | nil => simp at hab
    | cons y u =>
      cases c with
      | nil => simp at hbc
      | cons z v =>
        simp only [zipCmp] at h1 h2 ⊢
        by_cases hxy : x < y
        · rw [if_pos hxy] at h1; omega
        · by_cases hyx : y < x
          · rw [if_neg hxy, if_pos hyx] at h1; omega
          · by_cases hyz : y < z
            · rw [if_pos hyz] at h2; omega
            · by_cases hzy : z < y
              · rw [if_neg hyz, if_pos hzy] at h2; omega
              · rw [if_neg hxy, if_neg hyx] at h1
                rw [if_neg hyz, if_neg hzy] at h2
                rw [if_neg (by omega : ¬ x < z), if_neg (by omega : ¬ z < x)]
                exact ih u v (by simpa using hab) (by simpa using hbc) h1 h2

/-! ### The hand comparator: reflexivity, antisymmetry, transitivity -/

theorem compare_scores_self (s : HandScore) : compare_scores s s = 0 := by
  simp [compare_scores, zipCmp_self]

theorem compare_scores_neg (a b : HandScore) : compare_scores a b = -compare_scores b a := by
  unfold compare_scores
  by_cases h1 : b.1 < a.1
  · have h2 : ¬ a.1 < b.1 := lt_asymm h1
    simp [h1, h2]
  · by_cases h2 : a.1 < b.1
    · simp [h1, h2]
    · simp [h1, h2, zipCmp_neg a.2 b.2]

theorem compare_scores_nonneg_iff (a b : HandScore) :
    0 ≤ compare_scores a b ↔ b.1 < a.1 ∨ (a.1 = b.1 ∧ 0 ≤ zipCmp a.2 b.2) := by
  unfold compare_scores
  by_cases h1 : b.1 < a.1
  · simp [h1]
  · by_cases h2 : a.1 < b.1
    · simp [h1, h2]
      omega
    · have h3 : a.1 = b.1 := by omega
      simp [h1, h2, h3]

theorem compare_scores_eq_zero_iff (a b : HandScore) :
    compare_scores a b = 0 ↔ a.1 = b.1 ∧ zipCmp a.2 b.2 = 0 := by
  unfold compare_scores
  by_cases h1 : b.1 < a.1
  · simp [h1]
    omega
  · by_cases h2 : a.1 < b.1
    · simp [h1, h2]
      omega
    · have h3 : a.1 = b.1 := by omega
      simp [h1, h2, h3]

theorem compare_scores_pos_iff (a b : HandScore) :
    0 < compare_scores a b ↔ b.1 < a.1 ∨ (a.1 = b.1 ∧ 0 < zipCmp a.2 b.2) := by
  unfold compare_scores
  by_cases h1 : b.1 < a.1
  · simp [h1]
  · by_cases h2 : a.1 < b.1
    · simp [h1, h2]
      omega
    · have h3 : a.1 = b.1 := by omega
      simp [h1, h2, h3]

theorem compare_scores_trans_nonneg {a b c : HandScore}
    (hab : a.1 = b.1 → a.2.length = b.2.length) (hbc : b.1 = c.1 → b.2.length = c.2.length)
    (h1 : 0 ≤ compare_scores a b) (h2 : 0 ≤ compare_scores b c) :
    0 ≤ compare_scores a c := by
  rw [compare_scores_nonneg_iff] at h1 h2 ⊢
  rcases h1 with h1 | ⟨h1e, h1z⟩
  · rcases h2 with h2 | ⟨h2e, _⟩
    · exact .inl (lt_trans h2 h1)
    · exact .inl (h2e ▸ h1)
  · rcases h2 with h2 | ⟨h2e, h2z⟩
    · exact .inl (h1e ▸ h2)
    · exact .inr ⟨h1e.trans h2e, zipCmp_trans_nonneg a.2 b.2 c.2 (hab h1e) (hbc h2e) h1z h2z⟩

theorem compare_scores_trans_zero {a b c : HandScore}
    (hab : a.1 = b.1 → a.2.length = b.2.length) (hbc : b.1 = c.1 → b.2.length = c.2.length)
    (h1 : compare_scores a b = 0) (h2 : compare_scores b c = 0) :
    compare_scores a c = 0 := by
  rw [compare_scores_eq_zero_iff] at h1 h2 ⊢
  exact ⟨h1.1.trans h2.1,
    zipCmp_trans_zero a.2 b.2 c.2 (hab h1.1) (hbc h2.1) h1.2 h2.2⟩

/-- Length-linking fact supplied by well-formedness: scores of equal category
have tie-breaks of equal length. -/
theorem WFScore.len_link {a b : HandScore} (ha : WFScore a) (hb : WFScore b) :
    a.1 = b.1 → a.2.length = b.2.length := by
  intro h
  rw [ha.2.2, hb.2.2, h]

theorem compare_scores_ge_trans_wf {a b c : HandScore}
    (ha : WFScore a) (hb : WFScore b) (hc : WFScore c)
    (h1 : 0 ≤ compare_scores a b) (h2 : 0 ≤ compare_scores b c) :
    0 ≤ compare_scores a c :=
  compare_scores_trans_nonneg (ha.len_link hb) (hb.len_link hc) h1 h2

theorem compare_scores_gt_of_gt_of_ge_wf {a b c : HandScore}
    (ha : WFScore a) (hb : WFScore b) (hc : WFScore c)
    (h1 : 0 < compare_scores a b) (h2 : 0 ≤ compare_scores b c) :
    0 < compare_scores a c := by
  by_contra hac
  push_neg at hac
  have hca : 0 ≤ compare_scores c a := by
    rw [compare_scores_neg c a]
    omega
  have hba : 0 ≤ compare_scores b a :=
    compare_scores_ge_trans_wf hb hc ha h2 hca
  rw [compare_scores_neg b a] at hba
  omega

theorem compare_scores_gt_of_ge_of_gt_wf {a b c : HandScore}
    (ha : WFScore a) (hb : WFScore b) (hc : WFScore c)
    (h1 : 0 ≤ compare_scores a b) (h2 : 0 < compare_scores b c) :
    0 < compare_scores a c := by
  by_contra hac
  push_neg at hac
  have hca : 0 ≤ compare_scores c a := by
    rw [compare_scores_neg c a]
    omega
  have hcb : 0 ≤ compare_scores c b :=
    compare_scores_ge_trans_wf hc ha hb hca h1
  rw [compare_scores_neg c b] at hcb
  omega

/-! ### Shape of the evaluator's output -/

theorem find?_count_eq {l : List ℤ} {r : ℤ} {n : ℕ}
    (h : l.find? (fun x => l.count x == n) = some r) : l.count r = n := by
  have := List.find?_some h
  simpa using this

theorem handEval_wf (cards : List Card) (h5 : cards.length = 5) : WFScore (handEval cards) := by
  have hr : (ranksOf cards).length = 5 := by rw [length_ranksOf, h5]
  unfold handEval
  repeat' split
  all_goals refine ⟨by norm_num, by norm_num, ?_⟩
  all_goals first
    | rfl
    | exact hr
    | (rename_i r heq
       have hc := find?_count_eq heq
       have hf := length_filter_ne (ranksOf cards) r
       rw [hr, hc] at hf
       first
         | (show (r :: sortDescZ ((ranksOf cards).filter (fun v => v != r))).length = 3
            simp only [List.length_cons, length_sortDescZ]
            omega)
         | (show (r :: sortDescZ ((ranksOf cards).filter (fun v => v != r))).length = 4
            simp only [List.length_cons, length_sortDescZ]
            omega))
    | (rename_i hp
       show (sortDescZ (pairsOf cards)
          ++ [((ranksOf cards).filter (fun v => !(pairsOf cards).contains v)).headD 0]).length = 3
       simp [length_sortDescZ, hp])
    | (show (sortDescZ (ranksOf cards)).length = 5
       rw [length_sortDescZ]; exact hr)

theorem handEval_nine_or_le (cards : List Card) :
    handEval cards = (9, []) ∨ (handEval cards).1 ≤ 8 := by
  unfold handEval
  repeat' split
  · exact .inl rfl
  all_goals exact .inr (by norm_num)

theorem handEval_nine (cards : List Card) (h : (handEval cards).1 = 9) :
    handEval cards = (9, []) ∧ straightB cards = true ∧ flushB cards = true
      ∧ straightHigh cards = 12 := by
  by_cases hcond : (straightB cards && flushB cards && (ranksOf cards).contains 12
      && decide (straightHigh cards = 12)) = true
  · refine ⟨by unfold handEval; rw [if_pos hcond], ?_⟩
    simp only [Bool.and_eq_true, decide_eq_true_eq] at hcond
    exact ⟨hcond.1.1.1, hcond.1.1.2, hcond.2⟩
  · exfalso
    unfold handEval at h
    rw [if_neg hcond] at h
    repeat' split at h <;> norm_num at h

theorem handEval_straight_flush (cards : List Card) (hs : straightB cards = true)
    (hf : flushB cards = true) (hh : straightHigh cards ≠ 12) :
    handEval cards = (8, [straightHigh cards]) := by
  unfold handEval
  rw [if_neg (by simp [hh]), if_pos (by simp [hs, hf])]

/-! ### Python max and min over a nonempty list -/

theorem listMax_mem : ∀ l : List ℤ, l ≠ [] → listMax l ∈ l
  | [], h => absurd rfl h
  | [x], _ => by simp [listMax]
  | x :: y :: ys, _ => by
    simp only [listMax]
    rcases le_total x (listMax (y :: ys)) with h | h
    · rw [max_eq_right h]
      exact List.mem_cons_of_mem x (listMax_mem (y :: ys) (by simp))
    · rw [max_eq_left h]
      exact List.mem_cons_self x _

theorem le_listMax : ∀ (l : List ℤ) (x : ℤ), x ∈ l → x ≤ listMax l
  | [], x, h => absurd h (List.not_mem_nil x)
  | [y], x, h => by
    simp only [List.mem_singleton] at h
    simp [listMax, h]
  | y :: z :: zs, x, h => by
    simp only [listMax]
    rcases List.mem_cons.1 h with h | h
    · exact h ▸ le_max_left _ _
    · exact le_trans (le_listMax (z :: zs) x h) (le_max_right _ _)

theorem listMin_mem : ∀ l : List ℤ, l ≠ [] → listMin l ∈ l
  | [], h => absurd rfl h
  | [x], _ => by simp [listMin]
  | x :: y :: ys, _ => by
    simp only [listMin]
    rcases le_total x (listMin (y :: ys)) with h | h
    · rw [min_eq_left h]
      exact List.mem_cons_self x _
    · rw [min_eq_right h]
      exact List.mem_cons_of_mem x (listMin_mem (y :: ys) (by simp))

theorem listMin_le : ∀ (l : List ℤ) (x : ℤ), x ∈ l → listMin l ≤ x
  | [], x, h => absurd h (List.not_mem_nil x)
  | [y], x, h => by
    simp only [List.mem_singleton] at h
    simp [listMin, h]
  | y :: z :: zs, x, h => by
    simp only [listMin]
    rcases List.mem_cons.1 h with h | h
    · exact h ▸ min_le_left _ _
    · exact le_trans (min_le_right _ _) (listMin_le (z :: zs) x h)

/-! ### The best-five search loop -/

theorem bestLoop_spec : ∀ (L : List (List Card)) (b : List Card),
    b.length = 5 → (∀ l ∈ L, l.length = 5) →
    ∃ b', bestLoop L (some b, handEval b) = (some b', handEval b')
      ∧ (b' ∈ L ∨ b' = b) ∧ 0 ≤ compare_scores (handEval b') (handEval b)
      ∧ ∀ l ∈ L, 0 ≤ compare_scores (handEval b') (handEval l) := by
  intro L
  induction L with
  | nil =>
    intro b _ _
    exact ⟨b, rfl, .inr rfl, (compare_scores_self _).ge,
      fun l hl => absurd hl (List.not_mem_nil l)⟩
  | cons h t ih =>
    intro b hb hL
    have hh5 : h.length = 5 := hL h (List.mem_cons_self h t)
    have ht5 : ∀ l ∈ t, l.length = 5 := fun l hl => hL l (List.mem_cons_of_mem h hl)
    by_cases hcmp : compare_scores (handEval h) (handEval b) > 0
    · have step : bestLoop (h :: t) (some b, handEval b) = bestLoop t (some h, handEval h) := by
        simp [bestLoop, hcmp]
      rw [step]
      obtain ⟨b', hb', hmem, hge, hall⟩ := ih h hh5 ht5
      have wfb' : WFScore (handEval b') :=
        handEval_wf b' (by rcases hmem with hm | hm; exacts [ht5 b' hm, hm ▸ hh5])
      refine ⟨b', hb', ?_, ?_, ?_⟩
      · rcases hmem with hm | hm
        · exact .inl (List.mem_cons_of_mem h hm)
        · exact .inl (hm ▸ List.mem_cons_self h t)
      · exact le_of_lt (compare_scores_gt_of_ge_of_gt_wf wfb' (handEval_wf h hh5)
          (handEval_wf b hb) hge hcmp)
      · intro l hl
        rcases List.mem_cons.1 hl with rfl | hl
        · exact hge
        · exact hall l hl
    · have step : bestLoop (h :: t) (some b, handEval b) = bestLoop t (some b, handEval b) := by
        simp [bestLoop, hcmp]
      rw [step]
      obtain ⟨b', hb', hmem, hge, hall⟩ := ih b hb ht5
      have wfb' : WFScore (handEval b') :=
        handEval_wf b' (by rcases hmem with hm | hm; exacts [ht5 b' hm, hm ▸ hb])
      refine ⟨b', hb', ?_, hge, ?_⟩
      · rcases hmem with hm | hm
        · exact .inl (List.mem_cons_of_mem h hm)
        · exact .inr hm
      · intro l hl
        rcases List.mem_cons.1 hl with rfl | hl
        · have hb_ge_h : 0 ≤ compare_scores (handEval b) (handEval l) := by
            rw [compare_scores_neg]
            omega
          exact compare_scores_ge_trans_wf wfb' (handEval_wf b hb) (handEval_wf l hh5)
            hge hb_ge_h
        · exact hall l hl

theorem bestFive_spec (cards : List Card) (h5 : 5 ≤ cards.length) :
    ∃ b, bestFive cards = some b ∧ b ∈ combos 5 cards
      ∧ ∀ l ∈ combos 5 cards, 0 ≤ compare_scores (handEval b) (handEval l) := by
  have hne := combos_ne_nil 5 cards h5
  obtain ⟨c0, L, hL⟩ : ∃ c0 L, combos 5 cards = c0 :: L := by
    cases hc : combos 5 cards with
    | nil => exact absurd hc hne
    | cons c0 L => exact ⟨c0, L, rfl⟩
  have hmem : ∀ l ∈ combos 5 cards, l.length = 5 := fun l hl => ((mem_combos 5 cards l).1 hl).2
  have hc05 : c0.length = 5 := hmem c0 (by rw [hL]; exact List.mem_cons_self _ _)
  have hL5 : ∀ l ∈ L, l.length = 5 :=
    fun l hl => hmem l (by rw [hL]; exact List.mem_cons_of_mem _ hl)
  have step : bestLoop (c0 :: L) (none, ((-1 : ℤ), ([] : List ℤ)))
      = bestLoop L (some c0, handEval c0) := by
    simp [bestLoop]
  obtain ⟨b', hb', hmem', hge, hall⟩ := bestLoop_spec L c0 hc05 hL5
  refine ⟨b', ?_, ?_, ?_⟩
  · unfold bestFive
    rw [hL, step, hb']
  · rw [hL]
    rcases hmem' with hm | hm
    · exact List.mem_cons_of_mem _ hm
    · exact hm ▸ List.mem_cons_self _ _
  · intro l hl
    rw [hL] at hl
    rcases List.mem_cons.1 hl with rfl | hl
    · exact hge
    · exact hall l hl

theorem bestLoop_first : ∀ (L : List (List Card)) (b : List Card),
    b.length = 5 → (∀ l ∈ L, l.length = 5) →
    (bestLoop L (some b, handEval b) = (some b, handEval b)
       ∧ ∀ l ∈ L, compare_scores (handEval l) (handEval b) ≤ 0)
    ∨ (∃ pre best post, L = pre ++ best :: post
        ∧ bestLoop L (some b, handEval b) = (some best, handEval best)
        ∧ compare_scores (handEval b) (handEval best) < 0
        ∧ (∀ e ∈ pre, compare_scores (handEval e) (handEval best) < 0)
        ∧ (∀ e ∈ post, compare_scores (handEval e) (handEval best) ≤ 0)) := by
  intro L
  induction L with
  | nil =>
    intro b _ _
    exact .inl ⟨rfl, by simp⟩
  | cons h t ih =>
    intro b hb hL
    have hh5 : h.length = 5 := hL h (List.mem_cons_self h t)
    have ht5 : ∀ l ∈ t, l.length = 5 := fun l hl => hL l (List.mem_cons_of_mem h hl)
    by_cases hcmp : compare_scores (handEval h) (handEval b) > 0
    · have step : bestLoop (h :: t) (some b, handEval b) = bestLoop t (some h, handEval h) := by
        simp [bestLoop, hcmp]
      rcases ih h hh5 ht5 with ⟨heq, hall⟩ | ⟨pre, best, post, hsplit, heq, hlt, hpre, hpost⟩
      · refine .inr ⟨[], h, t, by simp, by rw [step, heq], ?_, by simp, hall⟩
        rw [compare_scores_neg]
        omega
      · have wfb := handEval_wf b hb
        have wfh := handEval_wf h hh5
        have wfbest : WFScore (handEval best) := handEval_wf best
          (ht5 best (by rw [hsplit]; exact List.mem_append_right _ (List.mem_cons_self _ _)))
        refine .inr ⟨h :: pre, best, post, by rw [hsplit]; rfl, by rw [step, heq], ?_, ?_, hpost⟩
        · have h1 : 0 < compare_scores (handEval best) (handEval h) := by
            have h' := hlt
            rw [compare_scores_neg] at h'
            omega
          have h3 := compare_scores_gt_of_gt_of_ge_wf wfbest wfh wfb h1 (le_of_lt hcmp)
          rw [compare_scores_neg]
          omega
        · intro e he
          rcases List.mem_cons.1 he with rfl | he
          · exact hlt
          · exact hpre e he
    · have step : bestLoop (h :: t) (some b, handEval b) = bestLoop t (some b, handEval b) := by
        simp [bestLoop, hcmp]
      rcases ih b hb ht5 with ⟨heq, hall⟩ | ⟨pre, best, post, hsplit, heq, hlt, hpre, hpost⟩
      · refine .inl ⟨by rw [step, heq], ?_⟩
        intro l hl
        rcases List.mem_cons.1 hl with rfl | hl
        · omega
        · exact hall l hl
      · refine .inr ⟨h :: pre, best, post, by rw [hsplit]; rfl, by rw [step, heq], hlt, ?_, hpost⟩
        intro e he
        rcases List.mem_cons.1 he with rfl | he
        · have wfh := handEval_wf e hh5
          have wfb := handEval_wf b hb
          have wfbest : WFScore (handEval best) := handEval_wf best
            (ht5 best (by rw [hsplit]; exact List.mem_append_right _ (List.mem_cons_self _ _)))
          have h1 : 0 ≤ compare_scores (handEval b) (handEval e) := by
            rw [compare_scores_neg]
            omega
          have h2 : 0 < compare_scores (handEval best) (handEval b) := by
            have h' := hlt
            rw [compare_scores_neg] at h'
            omega
          have h3 := compare_scores_gt_of_gt_of_ge_wf wfbest wfb wfh h2 h1
          rw [compare_scores_neg]
          omega
        · exact hpre e he

/-! ### Claim theorems -/

/-- C9: for every list of exactly 5 distinct cards, `hand_evaluator` succeeds,
returning a category in [0, 9] and a tie-break sequence whose length is the
category's fixed arity (0 for category 9; 1 for 8 and 4; 2 for 7 and 6; 5 for
5 and 0; 3 for 3 and 2; 4 for 1). -/
theorem hand_evaluator_arity (cards : List Card) (h5 : cards.length = 5)
    (hnd : cards.Nodup) :
    hand_evaluator cards = .ok (handEval cards) ∧ 0 ≤ (handEval cards).1
      ∧ (handEval cards).1 ≤ 9
      ∧ (handEval cards).2.length = arity (handEval cards).1 := by
  obtain ⟨h1, h2, h3⟩ := handEval_wf cards h5
  exact ⟨by simp [hand_evaluator, h5], h1, h2, h3⟩

/-- Witness for C9 at the concrete hand 2S 5H 7D 9C J S. -/
theorem hand_evaluator_arity_witness :
    ([⟨0, .S⟩, ⟨3, .H⟩, ⟨5, .D⟩, ⟨7, .C⟩, ⟨9, .S⟩] : List Card).length = 5
    ∧ ([⟨0, .S⟩, ⟨3, .H⟩, ⟨5, .D⟩, ⟨7, .C⟩, ⟨9, .S⟩] : List Card).Nodup
    ∧ (hand_evaluator [⟨0, .S⟩, ⟨3, .H⟩, ⟨5, .D⟩, ⟨7, .C⟩, ⟨9, .S⟩]
        = .ok (handEval [⟨0, .S⟩, ⟨3, .H⟩, ⟨5, .D⟩, ⟨7, .C⟩, ⟨9, .S⟩])
      ∧ 0 ≤ (handEval [⟨0, .S⟩, ⟨3, .H⟩, ⟨5, .D⟩, ⟨7, .C⟩, ⟨9, .S⟩]).1
      ∧ (handEval [⟨0, .S⟩, ⟨3, .H⟩, ⟨5, .D⟩, ⟨7, .C⟩, ⟨9, .S⟩]).1 ≤ 9
      ∧ (handEval [⟨0, .S⟩, ⟨3, .H⟩, ⟨5, .D⟩, ⟨7, .C⟩, ⟨9, .S⟩]).2.length
          = arity (handEval [⟨0, .S⟩, ⟨3, .H⟩, ⟨5, .D⟩, ⟨7, .C⟩, ⟨9, .S⟩]).1) :=
  ⟨by decide, by decide, hand_evaluator_arity _ (by decide) (by decide)⟩

/-- C3: `compare_scores` is a total order on well-formed `HandScore` values
(per the data model, tie-break length is the category's fixed arity, so two
scores of equal category have tie-breaks of equal length): it is reflexively
zero, antisymmetric, and transitive both for the non-strict relation and for
equality. -/
theorem compare_scores_total_order (a b c : HandScore)
    (ha : WFScore a) (hb : WFScore b) (hc : WFScore c) :
    compare_scores a a = 0
    ∧ compare_scores a b = -compare_scores b a
    ∧ (0 ≤ compare_scores a b → 0 ≤ compare_scores b c → 0 ≤ compare_scores a c)
    ∧ (compare_scores a b = 0 → compare_scores b c = 0 → compare_scores a c = 0) :=
  ⟨compare_scores_self a, compare_scores_neg a b,
    fun h1 h2 => compare_scores_ge_trans_wf ha hb hc h1 h2,
    fun h1 h2 => compare_scores_trans_zero (ha.len_link hb) (hb.len_link hc) h1 h2⟩

/-- Witness for C3 at three concrete well-formed scores. -/
theorem compare_scores_total_order_witness :
    WFScore (7, [5, 2]) ∧ WFScore (7, [5, 1]) ∧ WFScore (6, [3, 2])
    ∧ (compare_scores (7, [5, 2]) (7, [5, 2]) = 0
      ∧ compare_scores (7, [5, 2]) (7, [5, 1]) = -compare_scores (7, [5, 1]) (7, [5, 2])
      ∧ (0 ≤ compare_scores (7, [5, 2]) (7, [5, 1])
          → 0 ≤ compare_scores (7, [5, 1]) (6, [3, 2])
          → 0 ≤ compare_scores (7, [5, 2]) (6, [3, 2]))
      ∧ (compare_scores (7, [5, 2]) (7, [5, 1]) = 0
          → compare_scores (7, [5, 1]) (6, [3, 2]) = 0
          → compare_scores (7, [5, 2]) (6, [3, 2]) = 0)) :=
  ⟨⟨by decide, by decide, by decide⟩, ⟨by decide, by decide, by decide⟩,
    ⟨by decide, by decide, by decide⟩,
    compare_scores_total_order _ _ _ ⟨by decide, by decide, by decide⟩
      ⟨by decide, by decide, by decide⟩ ⟨by decide, by decide, by decide⟩⟩

/-- C1: on 5, 6, or 7 distinct cards, `find_best_five` succeeds and returns a
5-card subset (a length-5 sublist) of its input whose score under the
evaluator is greater than or equal — under `compare_scores` — to the score of
every 5-card subset of the input. -/
theorem find_best_five_optimal (cards : List Card)
    (hlen : cards.length = 5 ∨ cards.length = 6 ∨ cards.length = 7)
    (hnd : cards.Nodup) :
    ∃ best, find_best_five cards = .ok (some best)
      ∧ best.Sublist cards ∧ best.length = 5
      ∧ ∀ l ∈ combos 5 cards, 0 ≤ compare_scores (handEval best) (handEval l) := by
  have h5 : 5 ≤ cards.length := by rcases hlen with h | h | h <;> omega
  obtain ⟨b, hb, hmem, hall⟩ := bestFive_spec cards h5
  obtain ⟨hsub, hblen⟩ := (mem_combos 5 cards b).1 hmem
  refine ⟨b, ?_, hsub, hblen, hall⟩
  unfold find_best_five
  rw [if_neg (by omega), hb]

/-- Witness for C1 at a concrete 6-card input. -/
theorem find_best_five_optimal_witness :
    (([⟨0, .S⟩, ⟨3, .H⟩, ⟨5, .D⟩, ⟨7, .C⟩, ⟨9, .S⟩, ⟨9, .H⟩] : List Card).length = 5
      ∨ ([⟨0, .S⟩, ⟨3, .H⟩, ⟨5, .D⟩, ⟨7, .C⟩, ⟨9, .S⟩, ⟨9, .H⟩] : List Card).length = 6
      ∨ ([⟨0, .S⟩, ⟨3, .H⟩, ⟨5, .D⟩, ⟨7, .C⟩, ⟨9, .S⟩, ⟨9, .H⟩] : List Card).length = 7)
    ∧ ([⟨0, .S⟩, ⟨3, .H⟩, ⟨5, .D⟩, ⟨7, .C⟩, ⟨9, .S⟩, ⟨9, .H⟩] : List Card).Nodup
    ∧ ∃ best, find_best_five [⟨0, .S⟩, ⟨3, .H⟩, ⟨5, .D⟩, ⟨7, .C⟩, ⟨9, .S⟩, ⟨9, .H⟩]
        = .ok (some best)
      ∧ best.Sublist [⟨0, .S⟩, ⟨3, .H⟩, ⟨5, .D⟩, ⟨7, .C⟩, ⟨9, .S⟩, ⟨9, .H⟩]
      ∧ best.length = 5
      ∧ ∀ l ∈ combos 5 [⟨0, .S⟩, ⟨3, .H⟩, ⟨5, .D⟩, ⟨7, .C⟩, ⟨9, .S⟩, ⟨9, .H⟩],
          0 ≤ compare_scores (handEval best) (handEval l) :=
  ⟨by decide, by decide, find_best_five_optimal _ (by decide) (by decide)⟩

/-- C10: on any list of at least 5 distinct cards (length guards do not reject
inputs longer than 7), `find_best_five` returns precisely the first
score-maximal 5-card subset in the enumeration order of `combos`: every
earlier subset scores strictly lower, every later one scores no higher —
because the incumbent is replaced only on a strictly greater score. -/
theorem find_best_five_first_maximal (cards : List Card) (h5 : 5 ≤ cards.length)
    (hnd : cards.Nodup) :
    ∃ pre best post, combos 5 cards = pre ++ best :: post
      ∧ find_best_five cards = .ok (some best)
      ∧ (∀ e ∈ pre, compare_scores (handEval e) (handEval best) < 0)
      ∧ (∀ e ∈ post, compare_scores (handEval e) (handEval best) ≤ 0) := by
  have hne := combos_ne_nil 5 cards h5
  obtain ⟨c0, L, hL⟩ : ∃ c0 L, combos 5 cards = c0 :: L := by
    cases hc : combos 5 cards with
    | nil => exact absurd hc hne
    | cons c0 L => exact ⟨c0, L, rfl⟩
  have hmem : ∀ l ∈ combos 5 cards, l.length = 5 := fun l hl => ((mem_combos 5 cards l).1 hl).2
  have hc05 : c0.length = 5 := hmem c0 (by rw [hL]; exact List.mem_cons_self _ _)
  have hL5 : ∀ l ∈ L, l.length = 5 :=
    fun l hl => hmem l (by rw [hL]; exact List.mem_cons_of_mem _ hl)
  have step : bestLoop (c0 :: L) (none, ((-1 : ℤ), ([] : List ℤ)))
      = bestLoop L (some c0, handEval c0) := by
    simp [bestLoop]
  rcases bestLoop_first L c0 hc05 hL5 with ⟨heq, hall⟩ |
    ⟨pre, best, post, hsplit, heq, hlt, hpre, hpost⟩
  · refine ⟨[], c0, L, by rw [hL]; rfl, ?_, by simp, hall⟩
    unfold find_best_five bestFive
    rw [if_neg (by omega), hL, step, heq]
  · refine ⟨c0 :: pre, best, post, by rw [hL, hsplit]; rfl, ?_, ?_, hpost⟩
    · unfold find_best_five bestFive
      rw [if_neg (by omega), hL, step, heq]
    · intro e he
      rcases List.mem_cons.1 he with rfl | he
      · exact hlt
      · exact hpre e he

/-- Witness for C10 at a concrete 8-card input (longer than 7, still accepted). -/
theorem find_best_five_first_maximal_witness :
    5 ≤ ([⟨0, .S⟩, ⟨3, .H⟩, ⟨5, .D⟩, ⟨7, .C⟩, ⟨9, .S⟩, ⟨9, .H⟩, ⟨2, .C⟩, ⟨11, .D⟩]
          : List Card).length
    ∧ ([⟨0, .S⟩, ⟨3, .H⟩, ⟨5, .D⟩, ⟨7, .C⟩, ⟨9, .S⟩, ⟨9, .H⟩, ⟨2, .C⟩, ⟨11, .D⟩]
          : List Card).Nodup
    ∧ ∃ pre best post,
        combos 5 [⟨0, .S⟩, ⟨3, .H⟩, ⟨5, .D⟩, ⟨7, .C⟩, ⟨9, .S⟩, ⟨9, .H⟩, ⟨2, .C⟩, ⟨11, .D⟩]
          = pre ++ best :: post
      ∧ find_best_five [⟨0, .S⟩, ⟨3, .H⟩, ⟨5, .D⟩, ⟨7, .C⟩, ⟨9, .S⟩, ⟨9, .H⟩, ⟨2, .C⟩,
          ⟨11, .D⟩] = .ok (some best)
      ∧ (∀ e ∈ pre, compare_scores (handEval e) (handEval best) < 0)
      ∧ (∀ e ∈ post, compare_scores (handEval e) (handEval best) ≤ 0) :=
  ⟨by decide, by decide, find_best_five_first_maximal _ (by decide) (by decide)⟩

/-! ### Straights, flushes and the wheel -/

theorem nodup_of_toFinset_card_eq (l : List ℤ) (h : l.toFinset.card = l.length) :
    l.Nodup := by
  rw [List.card_toFinset] at h
  have := (List.dedup_sublist l).eq_of_length h
  rw [← this]
  exact List.nodup_dedup l

theorem handEval_straight_only (cards : List Card) (hs : straightB cards = true)
    (hf : flushB cards = false) (hnd : (ranksOf cards).Nodup) :
    handEval cards = (4, [straightHigh cards]) := by
  have hfind : ∀ n : ℕ, 2 ≤ n →
      (ranksOf cards).find? (fun r => (ranksOf cards).count r == n) = none := by
    intro n hn
    rw [List.find?_eq_none]
    intro x _
    have := List.nodup_iff_count_le_one.1 hnd x
    simp only [beq_iff_eq]
    omega
  have hpairs : pairsOf cards = [] := by
    unfold pairsOf
    apply List.filter_eq_nil_iff.2
    intro x hx
    have := List.nodup_iff_count_le_one.1 hnd x
    simp only [beq_iff_eq]
    omega
  unfold handEval
  rw [hf, hs, hfind 4 (by norm_num), hfind 3 (by norm_num), hfind 2 (by norm_num), hpairs]
  simp

theorem straightHigh_twelve_mem (cards : List Card) (hh : straightHigh cards = 12) :
    (12 : ℤ) ∈ ranksOf cards := by
  unfold straightHigh at hh
  split at hh
  · rename_i hrun
    have hcard : (ranksOf cards).toFinset.card = 5 := (of_decide_eq_true hrun).1
    have hne : ranksOf cards ≠ [] := by
      intro habs
      rw [habs] at hcard
      simp at hcard
    have hmem := listMax_mem (ranksOf cards) hne
    rw [hh] at hmem
    exact hmem
  · split at hh
    · norm_num at hh
    · norm_num at hh

theorem handEval_royal (cards : List Card) (hs : straightB cards = true)
    (hf : flushB cards = true) (hh : straightHigh cards = 12) :
    handEval cards = (9, []) := by
  unfold handEval
  rw [if_pos]
  simp [hs, hf, hh, straightHigh_twelve_mem cards hh]

/-- C4: a 5-card hand whose rank-value set is exactly `{0, 1, 2, 3, 12}` (the
wheel A-2-3-4-5) is classified as a straight with `straight_high = 3`:
category 4 with tie-break `[3]` when the suits are not all identical, and
category 8 (not 9) with tie-break `[3]` when they are. -/
theorem hand_evaluator_wheel (cards : List Card) (h5 : cards.length = 5)
    (hw : (cards.map Card.rank_value).toFinset = wheelFinset) :
    ((cards.map Card.suit).toFinset.card ≠ 1 → hand_evaluator cards = .ok (4, [3]))
    ∧ ((cards.map Card.suit).toFinset.card = 1 → hand_evaluator cards = .ok (8, [3])) := by
  have hrfin : (ranksOf cards).toFinset = wheelFinset := by
    rw [List.toFinset_eq_of_perm _ _ (ranksOf_perm cards), hw]
  have hlen5 : (ranksOf cards).length = 5 := by rw [length_ranksOf, h5]
  have hne : ranksOf cards ≠ [] := by
    intro habs
    rw [habs] at hlen5
    simp at hlen5
  have hmax : listMax (ranksOf cards) = 12 := by
    have h1 := listMax_mem (ranksOf cards) hne
    have h2 : listMax (ranksOf cards) ∈ wheelFinset := by
      rw [← hrfin]
      exact List.mem_toFinset.2 h1
    have h3 : (12 : ℤ) ∈ ranksOf cards := by
      have : (12 : ℤ) ∈ wheelFinset := by decide
      rw [← hrfin] at this
      exact List.mem_toFinset.1 this
    have h4 := le_listMax (ranksOf cards) 12 h3
    simp only [wheelFinset, Finset.mem_insert, Finset.mem_singleton] at h2
    omega
  have hmin : listMin (ranksOf cards) = 0 := by
    have h1 := listMin_mem (ranksOf cards) hne
    have h2 : listMin (ranksOf cards) ∈ wheelFinset := by
      rw [← hrfin]
      exact List.mem_toFinset.2 h1
    have h3 : (0 : ℤ) ∈ ranksOf cards := by
      have : (0 : ℤ) ∈ wheelFinset := by decide
      rw [← hrfin] at this
      exact List.mem_toFinset.1 this
    have h4 := listMin_le (ranksOf cards) 0 h3
    simp only [wheelFinset, Finset.mem_insert, Finset.mem_singleton] at h2
    omega
  have hcard : (ranksOf cards).toFinset.card = 5 := by rw [hrfin]; decide
  have hnd : (ranksOf cards).Nodup := nodup_of_toFinset_card_eq _ (by rw [hcard, hlen5])
  have hrun : isRunB cards = false := by
    apply decide_eq_false
    rintro ⟨-, habs⟩
    rw [hmax, hmin] at habs
    norm_num at habs
  have hwh : isWheelB cards = true := by
    apply decide_eq_true
    exact hrfin
  have hs : straightB cards = true := by simp [straightB, hwh]
  have hh : straightHigh cards = 3 := by simp [straightHigh, hrun, hwh]
  constructor
  · intro hnf
    have hfb : flushB cards = false := by
      apply decide_eq_false
      rw [List.toFinset_eq_of_perm _ _ (suitsOf_perm cards)]
      exact hnf
    have hev := handEval_straight_only cards hs hfb hnd
    unfold hand_evaluator
    rw [if_neg (by omega), hev, hh]
  · intro hfl
    have hfb : flushB cards = true := by
      apply decide_eq_true
      rw [List.toFinset_eq_of_perm _ _ (suitsOf_perm cards)]
      exact hfl
    have hev := handEval_straight_flush cards hs hfb (by rw [hh]; norm_num)
    unfold hand_evaluator
    rw [if_neg (by omega), hev, hh]

/-- Witness for C4 at the concrete non-flush wheel 2S 3H 4D 5C A S and the
flush wheel 2S 3S 4S 5S A S. -/
theorem hand_evaluator_wheel_witness :
    (([⟨0, .S⟩, ⟨1, .H⟩, ⟨2, .D⟩, ⟨3, .C⟩, ⟨12, .S⟩] : List Card).length = 5
      ∧ (([⟨0, .S⟩, ⟨1, .H⟩, ⟨2, .D⟩, ⟨3, .C⟩, ⟨12, .S⟩] : List Card).map
          Card.rank_value).toFinset = wheelFinset
      ∧ hand_evaluator [⟨0, .S⟩, ⟨1, .H⟩, ⟨2, .D⟩, ⟨3, .C⟩, ⟨12, .S⟩] = .ok (4, [3]))
    ∧ (([⟨0, .S⟩, ⟨1, .S⟩, ⟨2, .S⟩, ⟨3, .S⟩, ⟨12, .S⟩] : List Card).length = 5
      ∧ (([⟨0, .S⟩, ⟨1, .S⟩, ⟨2, .S⟩, ⟨3, .S⟩, ⟨12, .S⟩] : List Card).map
          Card.rank_value).toFinset = wheelFinset
      ∧ hand_evaluator [⟨0, .S⟩, ⟨1, .S⟩, ⟨2, .S⟩, ⟨3, .S⟩, ⟨12, .S⟩] = .ok (8, [3])) :=
  ⟨⟨by decide, by decide,
      (hand_evaluator_wheel _ (by decide) (by decide)).1 (by decide)⟩,
    ⟨by decide, by decide,
      (hand_evaluator_wheel _ (by decide) (by decide)).2 (by decide)⟩⟩

/-- C5: a 5-card hand that is both a straight and a flush is classified as
category 9 with empty tie-break exactly when `straight_high = 12`, and as
category 8 with tie-break `[straight_high]` otherwise; in particular the royal
flush 10S JS QS KS AS evaluates to `(9, [])` and the straight flush
9S 8S 7S 6S 5S to `(8, [7])`. -/
theorem hand_evaluator_straight_flush_cases :
    (∀ cards : List Card, cards.length = 5 → straightB cards = true →
      flushB cards = true →
      ((straightHigh cards = 12 → hand_evaluator cards = .ok (9, []))
        ∧ (straightHigh cards ≠ 12 →
            hand_evaluator cards = .ok (8, [straightHigh cards]))))
    ∧ hand_evaluator [⟨8, .S⟩, ⟨9, .S⟩, ⟨10, .S⟩, ⟨11, .S⟩, ⟨12, .S⟩] = .ok (9, [])
    ∧ hand_evaluator [⟨7, .S⟩, ⟨6, .S⟩, ⟨5, .S⟩, ⟨4, .S⟩, ⟨3, .S⟩] = .ok (8, [7]) := by
  refine ⟨?_, by rfl, by rfl⟩
  intro cards h5 hs hf
  constructor
  · intro hh
    have hev := handEval_royal cards hs hf hh
    unfold hand_evaluator
    rw [if_neg (by omega), hev]
  · intro hh
    have hev := handEval_straight_flush cards hs hf hh
    unfold hand_evaluator
    rw [if_neg (by omega), hev]

/-- Witness for C5: instantiate the universally quantified part at the royal
flush 10S JS QS KS AS, discharging its hypotheses concretely. -/
theorem hand_evaluator_straight_flush_cases_witness :
    ([⟨8, .S⟩, ⟨9, .S⟩, ⟨10, .S⟩, ⟨11, .S⟩, ⟨12, .S⟩] : List Card).length = 5
    ∧ straightB [⟨8, .S⟩, ⟨9, .S⟩, ⟨10, .S⟩, ⟨11, .S⟩, ⟨12, .S⟩] = true
    ∧ flushB [⟨8, .S⟩, ⟨9, .S⟩, ⟨10, .S⟩, ⟨11, .S⟩, ⟨12, .S⟩] = true
    ∧ straightHigh [⟨8, .S⟩, ⟨9, .S⟩, ⟨10, .S⟩, ⟨11, .S⟩, ⟨12, .S⟩] = 12
    ∧ hand_evaluator [⟨8, .S⟩, ⟨9, .S⟩, ⟨10, .S⟩, ⟨11, .S⟩, ⟨12, .S⟩] = .ok (9, []) :=
  ⟨by decide, by decide, by decide, by decide,
    (hand_evaluator_straight_flush_cases.1 _ (by decide) (by decide) (by decide)).1
      (by decide)⟩

/-! ### The probability engine: counting loop and remaining deck -/

theorem countWT_eq (community : List Card) (my : HandScore) (opps : List (List Card)) :
    countWT community my opps =
      (opps.countP (fun opp => decide
          (compare_scores my (handEval ((bestFive (opp ++ community)).getD [])) > 0)),
        opps.countP (fun opp => decide
          (compare_scores my (handEval ((bestFive (opp ++ community)).getD [])) = 0))) := by
  induction opps with
  | nil => rfl
  | cons o t ih =>
    by_cases h1 : compare_scores my (handEval ((bestFive (o ++ community)).getD [])) > 0
    · have hne : ¬ compare_scores my (handEval ((bestFive (o ++ community)).getD [])) = 0 := by
        omega
      simp [countWT, List.countP_cons, ih, h1, hne]
    · by_cases h2 : compare_scores my (handEval ((bestFive (o ++ community)).getD [])) = 0
      · simp [countWT, List.countP_cons, ih, h1, h2]
      · simp [countWT, List.countP_cons, ih, h1, h2]

theorem remaining_deck_of_eq (known : List Card) :
    remaining_deck_of known = unseenCards known := by
  unfold remaining_deck_of unseenCards
  apply List.filter_congr
  intro c _
  have hiff : ∀ k : Card,
      (c.rank_value == k.rank_value && decide (c.suit = k.suit)) = true ↔ c = k := by
    intro k
    cases c
    cases k
    simp [Card.mk.injEq]
  by_cases hc : c ∈ known
  · have hany : known.any
        (fun k => c.rank_value == k.rank_value && decide (c.suit = k.suit)) = true :=
      List.any_eq_true.2 ⟨c, hc, (hiff c).2 rfl⟩
    simp [hany, hc]
  · have hany : known.any
        (fun k => c.rank_value == k.rank_value && decide (c.suit = k.suit)) = false := by
      rw [List.any_eq_false]
      intro k hk
      rw [hiff k]
      intro he
      exact hc (he ▸ hk)
    simp [hany, hc]

theorem create_deck_nodup : create_deck.Nodup := by decide

theorem unseen_not_mem (known : List Card) (c : Card) (hc : c ∈ unseenCards known) :
    c ∉ known := by
  unfold unseenCards at hc
  have := List.of_mem_filter hc
  simpa using this

theorem unseen_nodup (known : List Card) : (unseenCards known).Nodup :=
  create_deck_nodup.filter _

theorem length_unseen (known : List Card) (hnd : known.Nodup)
    (hsub : ∀ c ∈ known, c ∈ create_deck) :
    (unseenCards known).length = 52 - known.length := by
  have hdeck_len : create_deck.length = 52 := by decide
  have hperm : (create_deck.filter (fun c => decide (c ∈ known))).Perm known := by
    rw [List.perm_ext_iff_of_nodup (create_deck_nodup.filter _) hnd]
    intro a
    constructor
    · intro ha
      have := List.of_mem_filter ha
      simpa using this
    · intro ha
      exact List.mem_filter.2 ⟨hsub a ha, by simpa using ha⟩
  have hsplit := List.length_eq_countP_add_countP
    (l := create_deck) (p := fun c => decide (c ∈ known))
  rw [List.countP_eq_length_filter, List.countP_eq_length_filter] at hsplit
  have hneg : create_deck.filter (fun a => decide (¬ decide (a ∈ known) = true))
      = unseenCards known := by
    unfold unseenCards
    apply List.filter_congr
    intro c _
    simp
  rw [hneg, hperm.length_eq, hdeck_len] at hsplit
  omega

/-- C2: on a valid input (2 hole cards, 5 community cards, the 7 distinct and
drawn from the deck, integer player count at least 2), `probability_calculator`
returns exactly `((wins + ties/2) / C(45,2)) ^ (player_count − 1)` where `wins`
counts the unordered 2-card subsets of the 45 unseen cards whose best
five-of-seven score is strictly beaten by the player's and `ties` counts those
scoring exactly equal (`spec_win_probability`, worded from the spec). -/
theorem probability_calculator_formula (my comm : List Card) (pc : ℤ)
    (h2 : my.length = 2) (h5 : comm.length = 5) (hnd : (my ++ comm).Nodup)
    (hdeck : ∀ c ∈ my ++ comm, c ∈ create_deck) (hpc : 2 ≤ pc) :
    probability_calculator my comm pc = .ok (spec_win_probability my comm pc) := by
  have h45 : (unseenCards (my ++ comm)).length = 45 := by
    rw [length_unseen (my ++ comm) hnd hdeck, List.length_append, h2, h5]
  unfold probability_calculator
  rw [if_neg (by omega), if_neg (by omega), remaining_deck_of_eq, countWT_eq]
  unfold spec_win_probability spec_wins spec_ties bestOfSeven
  rw [h45]

/-- Witness for C2 at hole = AS KS, community = 2H 3H 4H 5H 7H, 2 players. -/
theorem probability_calculator_formula_witness :
    ([⟨12, .S⟩, ⟨11, .S⟩] : List Card).length = 2
    ∧ ([⟨0, .H⟩, ⟨1, .H⟩, ⟨2, .H⟩, ⟨3, .H⟩, ⟨5, .H⟩] : List Card).length = 5
    ∧ (([⟨12, .S⟩, ⟨11, .S⟩] ++ [⟨0, .H⟩, ⟨1, .H⟩, ⟨2, .H⟩, ⟨3, .H⟩, ⟨5, .H⟩])
        : List Card).Nodup
    ∧ (∀ c ∈ (([⟨12, .S⟩, ⟨11, .S⟩] ++ [⟨0, .H⟩, ⟨1, .H⟩, ⟨2, .H⟩, ⟨3, .H⟩, ⟨5, .H⟩])
        : List Card), c ∈ create_deck)
    ∧ (2 : ℤ) ≤ 2
    ∧ probability_calculator [⟨12, .S⟩, ⟨11, .S⟩]
        [⟨0, .H⟩, ⟨1, .H⟩, ⟨2, .H⟩, ⟨3, .H⟩, ⟨5, .H⟩] 2
      = .ok (spec_win_probability [⟨12, .S⟩, ⟨11, .S⟩]
        [⟨0, .H⟩, ⟨1, .H⟩, ⟨2, .H⟩, ⟨3, .H⟩, ⟨5, .H⟩] 2) :=
  ⟨by decide, by decide, by decide, by decide, by decide,
    probability_calculator_formula _ _ _ (by decide) (by decide) (by decide)
      (by decide) (by decide)⟩

/-- C6 counterexample: the ace of spades appears both in the hole and on the
board, yet `probability_calculator` returns a result — the code has no
duplicate-card check at all, contradicting the claimed `DuplicateCardError`. -/
theorem probability_calculator_dup_returns :
    ∃ q, probability_calculator [⟨12, .S⟩, ⟨11, .H⟩]
        [⟨12, .S⟩, ⟨0, .H⟩, ⟨1, .D⟩, ⟨2, .C⟩, ⟨3, .S⟩] 2 = .ok q := by
  unfold probability_calculator
  rw [if_neg (by decide), if_neg (by decide)]
  exact ⟨_, rfl⟩

/-- C6 amended: `probability_calculator` performs no duplicate-card
validation; for any 2-card hole and 5-card community input — duplicates
included — it enumerates and returns a probability (the duplicated card is
simply filtered out of the remaining deck once). -/
theorem probability_calculator_no_dup_check (my comm : List Card) (pc : ℤ)
    (h2 : my.length = 2) (h5 : comm.length = 5) :
    ∃ q, probability_calculator my comm pc = .ok q := by
  unfold probability_calculator
  rw [if_neg (by omega), if_neg (by omega)]
  exact ⟨_, rfl⟩

/-- Witness for the amended C6 at the duplicated-ace input. -/
theorem probability_calculator_no_dup_check_witness :
    ([⟨12, .S⟩, ⟨11, .H⟩] : List Card).length = 2
    ∧ ([⟨12, .S⟩, ⟨0, .H⟩, ⟨1, .D⟩, ⟨2, .C⟩, ⟨3, .S⟩] : List Card).length = 5
    ∧ ∃ q, probability_calculator [⟨12, .S⟩, ⟨11, .H⟩]
        [⟨12, .S⟩, ⟨0, .H⟩, ⟨1, .D⟩, ⟨2, .C⟩, ⟨3, .S⟩] 5 = .ok q :=
  ⟨by decide, by decide,
    probability_calculator_no_dup_check _ _ _ (by decide) (by decide)⟩

/-- C8 counterexample: `player_count = 1 < 2` is not rejected —
`probability_calculator` returns `p ^ 0 = 1` instead of failing. -/
theorem probability_calculator_player_one_returns :
    probability_calculator [⟨12, .S⟩, ⟨11, .S⟩]
        [⟨0, .H⟩, ⟨1, .H⟩, ⟨2, .H⟩, ⟨3, .H⟩, ⟨5, .H⟩] 1 = .ok 1 := by
  unfold probability_calculator
  rw [if_neg (by decide), if_neg (by decide)]
  norm_num

/-- C8 amended: `probability_calculator` performs no `player_count`
validation: any integer is accepted, and in particular `player_count = 1`
yields exactly `p ^ 0 = 1` for every 2-card hole and 5-card community input. -/
theorem probability_calculator_no_player_check (my comm : List Card)
    (h2 : my.length = 2) (h5 : comm.length = 5) :
    probability_calculator my comm 1 = .ok 1 := by
  unfold probability_calculator
  rw [if_neg (by omega), if_neg (by omega)]
  norm_num

/-- Witness for the amended C8. -/
theorem probability_calculator_no_player_check_witness :
    ([⟨12, .D⟩, ⟨11, .C⟩] : List Card).length = 2
    ∧ ([⟨0, .H⟩, ⟨1, .H⟩, ⟨2, .H⟩, ⟨3, .H⟩, ⟨5, .H⟩] : List Card).length = 5
    ∧ probability_calculator [⟨12, .D⟩, ⟨11, .C⟩]
        [⟨0, .H⟩, ⟨1, .H⟩, ⟨2, .H⟩, ⟨3, .H⟩, ⟨5, .H⟩] 1 = .ok 1 :=
  ⟨by decide, by decide,
    probability_calculator_no_player_check _ _ (by decide) (by decide)⟩

/-! ### Royal flushes: characterization and counting -/

theorem length_le_of_nodup_subset (l1 l2 : List Card) (h1 : l1.Nodup) (hs : l1 ⊆ l2) :
    l1.length ≤ l2.length := by
  calc l1.length = l1.toFinset.card := (List.toFinset_card_of_nodup h1).symm
  _ ≤ l2.toFinset.card :=
    Finset.card_le_card (fun a ha => List.mem_toFinset.2 (hs (List.mem_toFinset.1 ha)))
  _ ≤ l2.length := List.toFinset_card_le l2

theorem fst_eq_nine_of_ge (sc : HandScore) (hwf : WFScore sc)
    (hge : 0 ≤ compare_scores sc (9, [])) : sc.1 = 9 := by
  rw [compare_scores_nonneg_iff] at hge
  rcases hge with h | ⟨h, -⟩
  · have h' : (9 : ℤ) < sc.1 := h
    have := hwf.2.1
    omega
  · exact h

theorem handEval_nine_of_ge (l : List Card) (h5 : l.length = 5)
    (hge : 0 ≤ compare_scores (handEval l) (9, [])) : handEval l = (9, []) :=
  (handEval_nine l (fst_eq_nine_of_ge _ (handEval_wf l h5) hge)).1

theorem royal_suit (s : Suit) : ∀ c ∈ royalCards s, c.suit = s := by
  cases s <;> decide

theorem royal_nodup (s : Suit) : (royalCards s).Nodup := by
  cases s <;> decide

theorem royal_length (s : Suit) : (royalCards s).length = 5 := by
  cases s <;> rfl

theorem royal_eval (s : Suit) : handEval (royalCards s) = (9, []) := by
  cases s <;> decide

theorem handEval_nine_royal (cards : List Card) (h5 : cards.length = 5)
    (h9 : (handEval cards).1 = 9) :
    ∃ s, ∀ c ∈ royalCards s, c ∈ cards := by
  obtain ⟨-, hs, hf, hh⟩ := handEval_nine cards h9
  have hf' : (suitsOf cards).toFinset.card = 1 := of_decide_eq_true hf
  obtain ⟨a, ha⟩ := Finset.card_eq_one.1 hf'
  have hsuit : ∀ c ∈ sortCardsDesc cards, c.suit = a := by
    intro c hc
    have hmem : c.suit ∈ (suitsOf cards).toFinset :=
      List.mem_toFinset.2 (List.mem_map_of_mem _ hc)
    rw [ha] at hmem
    simpa using hmem
  have hrun : isRunB cards = true ∧ listMax (ranksOf cards) = 12 := by
    unfold straightHigh at hh
    split at hh
    · rename_i h
      exact ⟨h, hh⟩
    · split at hh <;> norm_num at hh
  obtain ⟨hcard5, hdiff⟩ := of_decide_eq_true hrun.1
  have hlen : (ranksOf cards).length = 5 := by rw [length_ranksOf, h5]
  have hmax : listMax (ranksOf cards) = 12 := hrun.2
  have hmin : listMin (ranksOf cards) = 8 := by omega
  have hsubI : (ranksOf cards).toFinset ⊆ Finset.Icc (8 : ℤ) 12 := by
    intro x hx
    have hxm : x ∈ ranksOf cards := List.mem_toFinset.1 hx
    have h1 := listMin_le _ x hxm
    have h2 := le_listMax _ x hxm
    rw [Finset.mem_Icc]
    omega
  have hIcc_card : (Finset.Icc (8 : ℤ) 12).card = 5 := by decide
  have hEq : (ranksOf cards).toFinset = Finset.Icc (8 : ℤ) 12 :=
    Finset.eq_of_subset_of_card_le hsubI (by rw [hIcc_card, hcard5])
  have hv : ∀ v : ℤ, 8 ≤ v → v ≤ 12 → (Card.mk v a) ∈ cards := by
    intro v hv1 hv2
    have hvt : v ∈ (ranksOf cards).toFinset := by
      rw [hEq, Finset.mem_Icc]
      exact ⟨hv1, hv2⟩
    obtain ⟨c, hc, hcv⟩ := List.mem_map.1 (List.mem_toFinset.1 hvt)
    have hca := hsuit c hc
    have hcards : c ∈ cards := (sortCardsDesc_perm cards).subset hc
    have hceq : Card.mk v a = c := by
      cases c
      simp only [Card.mk.injEq]
      simp only at hcv hca
      exact ⟨hcv.symm, hca.symm⟩
    rw [hceq]
    exact hcards
  refine ⟨a, ?_⟩
  intro c hc
  have hdis : c = Card.mk 8 a ∨ c = Card.mk 9 a ∨ c = Card.mk 10 a ∨ c = Card.mk 11 a
      ∨ c = Card.mk 12 a := by
    simpa [royalCards] using hc
  rcases hdis with rfl | rfl | rfl | rfl | rfl
  all_goals apply hv <;> norm_num

theorem royal_filter_comm_ge (s : Suit) (other comm : List Card) (hlen : other.length = 2)
    (hsub : ∀ c ∈ royalCards s, c ∈ other ++ comm) :
    3 ≤ ((royalCards s).filter (fun c => decide (c ∈ comm))).length := by
  have hnd := royal_nodup s
  have hsplit := List.length_eq_countP_add_countP
    (l := royalCards s) (p := fun c => decide (c ∈ comm))
  rw [List.countP_eq_length_filter, List.countP_eq_length_filter] at hsplit
  rw [royal_length] at hsplit
  have hsub2 : (royalCards s).filter (fun a => decide (¬ decide (a ∈ comm) = true))
      ⊆ other := by
    intro c hc
    have hcr := List.mem_of_mem_filter hc
    have hcnc : c ∉ comm := by simpa using List.of_mem_filter hc
    rcases List.mem_append.1 (hsub c hcr) with h | h
    exacts [h, absurd h hcnc]
  have hle := length_le_of_nodup_subset _ _ (hnd.filter _) hsub2
  rw [hlen] at hle
  omega

theorem no_two_royals (s s' : Suit) (hne : s' ≠ s) (other other' comm : List Card)
    (h2 : other.length = 2) (h2' : other'.length = 2) (hc5 : comm.length = 5)
    (hsub : ∀ c ∈ royalCards s, c ∈ other ++ comm)
    (hsub' : ∀ c ∈ royalCards s', c ∈ other' ++ comm) : False := by
  have hBs := royal_filter_comm_ge s other comm h2 hsub
  have hBs' := royal_filter_comm_ge s' other' comm h2' hsub'
  have hnds : ((royalCards s).filter (fun c => decide (c ∈ comm))).Nodup :=
    (royal_nodup s).filter _
  have hnds' : ((royalCards s').filter (fun c => decide (c ∈ comm))).Nodup :=
    (royal_nodup s').filter _
  have hdisj : ((royalCards s).filter (fun c => decide (c ∈ comm))).Disjoint
      ((royalCards s').filter (fun c => decide (c ∈ comm))) := by
    intro c hcs hcs'
    have e1 := royal_suit s c (List.mem_of_mem_filter hcs)
    have e2 := royal_suit s' c (List.mem_of_mem_filter hcs')
    exact hne (by rw [← e2, e1])
  have happ := hnds.append hnds' hdisj
  have hsubc : ((royalCards s).filter (fun c => decide (c ∈ comm))
      ++ (royalCards s').filter (fun c => decide (c ∈ comm))) ⊆ comm := by
    intro c hc
    rcases List.mem_append.1 hc with h | h
    · simpa using List.of_mem_filter h
    · simpa using List.of_mem_filter h
  have hfin := length_le_of_nodup_subset _ _ happ hsubc
  rw [List.length_append, hc5] at hfin
  omega

theorem best_of_board_royal (s : Suit) (other : List Card) (h2 : other.length = 2) :
    handEval ((bestFive (other ++ royalCards s)).getD []) = (9, []) := by
  have hlen : (other ++ royalCards s).length = 7 := by
    rw [List.length_append, h2, royal_length]
  obtain ⟨bo, hbo, hmem, hall⟩ := bestFive_spec (other ++ royalCards s) (by omega)
  have hb5 := ((mem_combos _ _ _).1 hmem).2
  have hroy : royalCards s ∈ combos 5 (other ++ royalCards s) :=
    (mem_combos _ _ _).2 ⟨List.sublist_append_right _ _, royal_length s⟩
  have hge := hall _ hroy
  rw [royal_eval] at hge
  rw [hbo]
  simp only [Option.getD_some]
  exact handEval_nine_of_ge bo hb5 hge

theorem royal_perm_eval (s : Suit) (t : List Card) (hp : t.Perm (royalCards s)) :
    handEval t = (9, []) := by
  have hlen : t.length = 5 := by rw [hp.length_eq, royal_length]
  have hsuits : ∀ c ∈ t, c.suit = s := fun c hc => royal_suit s c (hp.subset hc)
  have hr : (ranksOf t).toFinset = ({8, 9, 10, 11, 12} : Finset ℤ) := by
    rw [List.toFinset_eq_of_perm _ _ (ranksOf_perm t),
      List.toFinset_eq_of_perm _ _ (hp.map Card.rank_value)]
    cases s <;> decide
  have h12 : (12 : ℤ) ∈ ranksOf t := by
    have hm : (12 : ℤ) ∈ (ranksOf t).toFinset := by rw [hr]; decide
    exact List.mem_toFinset.1 hm
  have h8 : (8 : ℤ) ∈ ranksOf t := by
    have hm : (8 : ℤ) ∈ (ranksOf t).toFinset := by rw [hr]; decide
    exact List.mem_toFinset.1 hm
  have hbound : ∀ x ∈ ranksOf t, 8 ≤ x ∧ x ≤ 12 := by
    intro x hx
    have hm : x ∈ ({8, 9, 10, 11, 12} : Finset ℤ) := by
      rw [← hr]
      exact List.mem_toFinset.2 hx
    simp only [Finset.mem_insert, Finset.mem_singleton] at hm
    rcases hm with rfl | rfl | rfl | rfl | rfl <;> norm_num
  have hne : ranksOf t ≠ [] := by
    intro h
    have := length_ranksOf t
    rw [h, hlen] at this
    simp at this
  have hmax : listMax (ranksOf t) = 12 := by
    have h1 := le_listMax _ 12 h12
    have h2 := (hbound _ (listMax_mem _ hne)).2
    omega
  have hmin : listMin (ranksOf t) = 8 := by
    have h1 := listMin_le _ 8 h8
    have h2 := (hbound _ (listMin_mem _ hne)).1
    omega
  have hcard : (ranksOf t).toFinset.card = 5 := by rw [hr]; decide
  have hrun : isRunB t = true := by
    apply decide_eq_true
    exact ⟨hcard, by rw [hmax, hmin]; norm_num⟩
  have hstraight : straightB t = true := by simp [straightB, hrun]
  have hhigh : straightHigh t = 12 := by simp [straightHigh, hrun, hmax]
  have hflush : flushB t = true := by
    apply decide_eq_true
    have hset : (suitsOf t).toFinset = {s} := by
      apply Finset.ext
      intro x
      simp only [List.mem_toFinset, Finset.mem_singleton]
      constructor
      · intro hx
        obtain ⟨c, hc, hcx⟩ := List.mem_map.1 hx
        rw [← hcx]
        exact hsuits c ((sortCardsDesc_perm t).subset hc)
      · intro hx
        subst hx
        obtain ⟨c, hc⟩ : ∃ c, c ∈ t := by
          cases t with
          | nil => simp at hlen
          | cons a t' => exact ⟨a, List.mem_cons_self _ _⟩
        have hc' : c ∈ sortCardsDesc t := (sortCardsDesc_perm t).mem_iff.2 hc
        have hmem := List.mem_map_of_mem Card.suit hc'
        rw [hsuits c hc] at hmem
        exact hmem
    rw [hset]
    rfl
  exact handEval_royal t hstraight hflush hhigh

/-- The seven known cards, filtered to the royal cards, form a 5-card subset
of the seven that is a permutation of the royal flush. -/
theorem royal_subset_combo (s : Suit) (seven : List Card) (hnd : seven.Nodup)
    (hroyal : ∀ c ∈ royalCards s, c ∈ seven) :
    seven.filter (fun c => decide (c ∈ royalCards s)) ∈ combos 5 seven
    ∧ (seven.filter (fun c => decide (c ∈ royalCards s))).Perm (royalCards s) := by
  have hfperm : (seven.filter (fun c => decide (c ∈ royalCards s))).Perm (royalCards s) := by
    rw [List.perm_ext_iff_of_nodup (hnd.filter _) (royal_nodup s)]
    intro c
    constructor
    · intro hc
      simpa using List.of_mem_filter hc
    · intro hc
      exact List.mem_filter.2 ⟨hroyal c hc, by simpa using hc⟩
  exact ⟨(mem_combos _ _ _).2 ⟨List.filter_sublist _,
    by rw [hfperm.length_eq, royal_length]⟩, hfperm⟩

/-- C7 amended: if the player's seven cards contain a royal flush that is not
entirely on the board (at least one of its five cards is a hole card), then no
opponent can tie or beat it, and `probability_calculator` returns exactly 1
regardless of `player_count`. -/
theorem probability_calculator_royal_hole_one (my comm : List Card) (pc : ℤ) (s : Suit)
    (h2 : my.length = 2) (h5 : comm.length = 5) (hnd : (my ++ comm).Nodup)
    (hdeck : ∀ c ∈ my ++ comm, c ∈ create_deck)
    (hroyal : ∀ c ∈ royalCards s, c ∈ my ++ comm)
    (hnotb : ¬ ∀ c ∈ royalCards s, c ∈ comm) :
    probability_calculator my comm pc = .ok 1 := by
  have h7 : (my ++ comm).length = 7 := by rw [List.length_append, h2, h5]
  obtain ⟨bm, hbm, hbm_mem, hbm_all⟩ := bestFive_spec (my ++ comm) (by omega)
  have hbm5 : bm.length = 5 := ((mem_combos _ _ _).1 hbm_mem).2
  obtain ⟨ht_mem, ht_perm⟩ := royal_subset_combo s (my ++ comm) hnd hroyal
  have hge := hbm_all _ ht_mem
  rw [royal_perm_eval s _ ht_perm] at hge
  have hbm_royal : handEval bm = (9, []) := handEval_nine_of_ge bm hbm5 hge
  have key : ∀ opp ∈ combos 2 (unseenCards (my ++ comm)),
      compare_scores (handEval ((bestFive (my ++ comm)).getD []))
        (handEval ((bestFive (opp ++ comm)).getD [])) > 0 := by
    intro opp hoppm
    obtain ⟨hosub, holen⟩ := (mem_combos _ _ opp).1 hoppm
    have ho7 : (opp ++ comm).length = 7 := by rw [List.length_append, holen, h5]
    obtain ⟨bo, hbo, hbo_mem, hbo_all⟩ := bestFive_spec (opp ++ comm) (by omega)
    have hbo5 : bo.length = 5 := ((mem_combos _ _ _).1 hbo_mem).2
    rw [hbm, hbo]
    simp only [Option.getD_some]
    rw [hbm_royal]
    have hole : (handEval bo).1 ≤ 8 := by
      rcases handEval_nine_or_le bo with h | h
      · exfalso
        obtain ⟨s', hs'⟩ := handEval_nine_royal bo hbo5 (by rw [h])
        have hsubbo : ∀ c ∈ royalCards s', c ∈ opp ++ comm := fun c hc =>
          ((mem_combos _ _ _).1 hbo_mem).1.subset (hs' c hc)
        by_cases hss : s' = s
        · subst hss
          push_neg at hnotb
          obtain ⟨c0, hc0r, hc0nc⟩ := hnotb
          have hc0 : c0 ∈ opp ++ comm := hsubbo c0 hc0r
          have hc0opp : c0 ∈ opp := by
            rcases List.mem_append.1 hc0 with h' | h'
            exacts [h', absurd h' hc0nc]
          have hc0un : c0 ∈ unseenCards (my ++ comm) := hosub.subset hc0opp
          have hnot := unseen_not_mem _ c0 hc0un
          exact hnot (hroyal c0 hc0r)
        · exact no_two_royals s s' hss my opp comm h2 holen h5 hroyal hsubbo
      · exact h
    rw [gt_iff_lt, compare_scores_pos_iff]
    left
    show (handEval bo).1 < (9 : ℤ)
    omega
  unfold probability_calculator
  rw [if_neg (by omega), if_neg (by omega), remaining_deck_of_eq, countWT_eq]
  have hwins : (combos 2 (unseenCards (my ++ comm))).countP
      (fun opp => decide (compare_scores (handEval ((bestFive (my ++ comm)).getD []))
        (handEval ((bestFive (opp ++ comm)).getD [])) > 0))
      = (combos 2 (unseenCards (my ++ comm))).length := by
    rw [List.countP_eq_length]
    intro opp hoppm
    simpa using key opp hoppm
  have hties : (combos 2 (unseenCards (my ++ comm))).countP
      (fun opp => decide (compare_scores (handEval ((bestFive (my ++ comm)).getD []))
        (handEval ((bestFive (opp ++ comm)).getD [])) = 0)) = 0 := by
    rw [List.countP_eq_zero]
    intro opp hoppm
    have := key opp hoppm
    simp only [decide_eq_true_eq]
    omega
  rw [hwins, hties, length_combos]
  have h45 : (unseenCards (my ++ comm)).length = 45 := by
    rw [length_unseen _ hnd hdeck, h7]
  rw [h45]
  have hch : Nat.choose 45 2 = 990 := by decide
  rw [hch]
  norm_num [one_zpow]

/-- Witness for the amended C7: hole AS KS, board QS JS 10S 2H 3D, 3 players. -/
theorem probability_calculator_royal_hole_one_witness :
    ([⟨12, .S⟩, ⟨11, .S⟩] : List Card).length = 2
    ∧ ([⟨8, .S⟩, ⟨9, .S⟩, ⟨10, .S⟩, ⟨0, .H⟩, ⟨1, .D⟩] : List Card).length = 5
    ∧ (([⟨12, .S⟩, ⟨11, .S⟩] ++ [⟨8, .S⟩, ⟨9, .S⟩, ⟨10, .S⟩, ⟨0, .H⟩, ⟨1, .D⟩])
        : List Card).Nodup
    ∧ (∀ c ∈ (([⟨12, .S⟩, ⟨11, .S⟩] ++ [⟨8, .S⟩, ⟨9, .S⟩, ⟨10, .S⟩, ⟨0, .H⟩, ⟨1, .D⟩])
        : List Card), c ∈ create_deck)
    ∧ (∀ c ∈ royalCards .S,
        c ∈ (([⟨12, .S⟩, ⟨11, .S⟩] ++ [⟨8, .S⟩, ⟨9, .S⟩, ⟨10, .S⟩, ⟨0, .H⟩, ⟨1, .D⟩])
          : List Card))
    ∧ ¬ (∀ c ∈ royalCards .S, c ∈ ([⟨8, .S⟩, ⟨9, .S⟩, ⟨10, .S⟩, ⟨0, .H⟩, ⟨1, .D⟩]
        : List Card))
    ∧ probability_calculator [⟨12, .S⟩, ⟨11, .S⟩]
        [⟨8, .S⟩, ⟨9, .S⟩, ⟨10, .S⟩, ⟨0, .H⟩, ⟨1, .D⟩] 3 = .ok 1 :=
  ⟨by decide, by decide, by decide, by decide, by decide, by decide,
    probability_calculator_royal_hole_one [⟨12, .S⟩, ⟨11, .S⟩]
      [⟨8, .S⟩, ⟨9, .S⟩, ⟨10, .S⟩, ⟨0, .H⟩, ⟨1, .D⟩] 3 .S (by decide) (by decide)
      (by decide) (by decide) (by decide) (by decide)⟩

/-- C7 counterexample: with the royal flush entirely on the board (hole 2H 7D,
board 10S JS QS KS AS, 2 players) every one of the 990 opponent holdings ties,
so `probability_calculator` returns 1/2, not 1.0 — refuting the claim that a
royal-flush best hand always yields probability 1. -/
theorem probability_calculator_board_royal_not_one :
    probability_calculator [⟨0, .H⟩, ⟨5, .D⟩] (royalCards .S) 2 = .ok (1/2)
    ∧ ((1 : ℚ)/2) ≠ 1 := by
  refine ⟨?_, by norm_num⟩
  have hmy : handEval ((bestFive ([⟨0, .H⟩, ⟨5, .D⟩] ++ royalCards .S)).getD [])
      = (9, []) := best_of_board_royal .S [⟨0, .H⟩, ⟨5, .D⟩] (by decide)
  have key : ∀ opp ∈ combos 2 (unseenCards ([⟨0, .H⟩, ⟨5, .D⟩] ++ royalCards .S)),
      compare_scores
        (handEval ((bestFive ([⟨0, .H⟩, ⟨5, .D⟩] ++ royalCards .S)).getD []))
        (handEval ((bestFive (opp ++ royalCards .S)).getD [])) = 0 := by
    intro opp hoppm
    obtain ⟨-, holen⟩ := (mem_combos _ _ opp).1 hoppm
    rw [hmy, best_of_board_royal .S opp holen]
    exact compare_scores_self _
  unfold probability_calculator
  rw [if_neg (by decide), if_neg (by decide), remaining_deck_of_eq, countWT_eq]
  have hties : (combos 2 (unseenCards ([⟨0, .H⟩, ⟨5, .D⟩] ++ royalCards .S))).countP
      (fun opp => decide (compare_scores
        (handEval ((bestFive ([⟨0, .H⟩, ⟨5, .D⟩] ++ royalCards .S)).getD []))
        (handEval ((bestFive (opp ++ royalCards .S)).getD [])) = 0))
      = (combos 2 (unseenCards ([⟨0, .H⟩, ⟨5, .D⟩] ++ royalCards .S))).length := by
    rw [List.countP_eq_length]
    intro opp hoppm
    simpa using key opp hoppm
  have hwins : (combos 2 (unseenCards ([⟨0, .H⟩, ⟨5, .D⟩] ++ royalCards .S))).countP
      (fun opp => decide (compare_scores
        (handEval ((bestFive ([⟨0, .H⟩, ⟨5, .D⟩] ++ royalCards .S)).getD []))
        (handEval ((bestFive (opp ++ royalCards .S)).getD [])) > 0)) = 0 := by
    rw [List.countP_eq_zero]
    intro opp hoppm
    have := key opp hoppm
    simp only [decide_eq_true_eq]
    omega
  rw [hwins, hties, length_combos]
  have h45 : (unseenCards ([⟨0, .H⟩, ⟨5, .D⟩] ++ royalCards .S)).length = 45 := by
    rw [length_unseen _ (by decide) (by decide)]
    rfl
  rw [h45]
  have hch : Nat.choose 45 2 = 990 := by decide
  rw [hch]
  norm_num [zpow_one]
